import Mathlib

/-!
Verification development for the seeded value-generation core of a fake-data
library, together with its image-URL module.

The image module (`urlPicsumPhotos`, `personPortrait`) is embedded directly
from `src/modules/image/index.ts`.  The seeded core (PRNG source, seed
lifecycle, bounded numeric sampler, choice selectors, numeric-string
generation, transliteration fallback) is present in the repository sample only
through its tests and callers, so those components are modelled from the
specification text, as marked in each doc comment.
-/

namespace Faker

open scoped List

/-- Modulus of the 32-bit PRNG word. -/
def M : Nat := 4294967296

/-- Modelled from the spec: the PRNG Source steps its internal word state
deterministically.  The concrete step is a linear congruential update on a
32-bit word; the library's actual generator is not part of the sample, only
its contract (seedable, deterministic given seed and call order). -/
def prngNext (s : Nat) : Nat := (1664525 * s + 1013904223) % M

/-- Modelled from the spec: SeedState.  `mt` is the PRNG's internal word,
reset by seeding; `entropy` is the auto-seed entropy counter (time + counter
source), which advances on every draw but never influences generated values
after an explicit seed. -/
structure GenState where
  mt : Nat
  entropy : Nat
deriving DecidableEq, Repr

/-- Modelled from the spec: one raw draw from the PRNG Source, returning the
fresh 32-bit word and the advanced state. -/
def drawNat (σ : GenState) : Nat × GenState :=
  let s := prngNext σ.mt
  (s, ⟨s, σ.entropy + 1⟩)

/-- Modelled from the spec: `nextFloat() -> f in [0,1)`, the raw word scaled
into the unit interval (represented exactly as a rational). -/
def nextFloat (σ : GenState) : ℚ × GenState :=
  let (r, σ') := drawNat σ
  ((r : ℚ) / (M : ℚ), σ')

/-- Modelled from the spec: `setSeed(seedValue)` resets the PRNG word so that
subsequent draws are a pure function of the seed and call order; the entropy
counter (used only for auto-seeding) is untouched. -/
def setSeed (v : Nat) (σ : GenState) : GenState := ⟨v % M, σ.entropy⟩

/-- Modelled from the spec: the typed error kinds of the core. -/
inductive FakerError where
  | InvalidRange
  | EmptyInput
  | InvalidCount
  | NoValidValue
  | UnsupportedPattern
deriving DecidableEq, Repr

/-- Modelled from the spec: `int(range) -> integer`, uniform over
`[min, max]` inclusive; `min > max` fails with `InvalidRange`; `min == max`
returns that value. -/
def intS (min max : Int) (σ : GenState) : Except FakerError (Int × GenState) :=
  if max < min then .error .InvalidRange
  else
    let (r, σ') := drawNat σ
    .ok (min + (r : Int) % (max - min + 1), σ')

/-- Modelled from the spec: `float(range, precision?)`.  With a requested
precision the value is produced by sampling an integer over the range scaled
by `10 ^ precision` and dividing; without one the raw unit draw is scaled
into the range.  Edge policy: `min == max` returns that value with no error;
`min > max` fails with `InvalidRange`; an empty scaled range (possible only
when `min < max`) fails with `NoValidValue`. -/
def floatS (min max : ℚ) (prec : Option Nat) (σ : GenState) :
    Except FakerError (ℚ × GenState) :=
  if max < min then .error .InvalidRange
  else if min = max then .ok (min, σ)
  else
    match prec with
    | none =>
      let (u, σ') := nextFloat σ
      .ok (min + u * (max - min), σ')
    | some p =>
      let f : ℚ := 10 ^ p
      let lo : Int := ⌈min * f⌉
      let hi : Int := ⌊max * f⌋
      if hi < lo then .error .NoValidValue
      else
        let (r, σ') := drawNat σ
        .ok (((lo + (r : Int) % (hi - lo + 1) : Int) : ℚ) / f, σ')

/-- Value `q` has at most `p` decimal digits: scaling by `10 ^ p` lands on an
integer. -/
def decimalsLe (q : ℚ) (p : Nat) : Prop := (q * 10 ^ p).den = 1

instance (q : ℚ) (p : Nat) : Decidable (decimalsLe q p) :=
  inferInstanceAs (Decidable ((q * 10 ^ p).den = 1))

/-- Modelled from the spec: the geocoordinate generator passes its optional
precision to the float sampler, defaulting to 4 decimal places when the
caller gives none (domain-bounded default noted in the spec). -/
def latitudeS (min max : ℚ) (prec : Option Nat) (σ : GenState) :
    Except FakerError (ℚ × GenState) :=
  floatS min max (some (prec.getD 4)) σ

/-- Modelled from the spec: `pick(options)` is a uniform choice,
`index = nextInt(len)`; an empty option list fails with `EmptyInput`. -/
def pick {α : Type} (opts : List α) (σ : GenState) :
    Except FakerError (α × GenState) :=
  match opts with
  | [] => .error .EmptyInput
  | x :: rest =>
    let (r, σ') := drawNat σ
    .ok ((x :: rest).getD (r % (x :: rest).length) x, σ')

/-- Modelled from the spec: the cumulative search inside `pickWeighted`.
Starting from the head option with weight `w`, it returns the first option
whose cumulative weight exceeds the residual draw `r` (strict comparison, so
at a boundary tie the lower index wins); if the draw exhausts the list the
last option is kept. -/
def pickWeightedGo {α : Type} (x : α) (w : ℚ) (rest : List (α × ℚ)) (r : ℚ) : α :=
  if r < w then x
  else
    match rest with
    | [] => x
    | (y, w') :: rest' => pickWeightedGo y w' rest' (r - w)

/-- Total weight of a weighted option list. -/
def totalW {α : Type} (opts : List (α × ℚ)) : ℚ :=
  opts.foldr (fun p acc => p.2 + acc) 0

/-- Cumulative weight of the first `k` options. -/
def cumW {α : Type} (opts : List (α × ℚ)) (k : Nat) : ℚ :=
  totalW (opts.take k)

/-- Modelled from the spec: `pickWeighted(options)` draws
`r = nextFloat() * totalWeight` and walks the cumulative weights, returning
the first option whose cumulative weight exceeds `r`; an empty list fails
with `EmptyInput`. -/
def pickWeighted {α : Type} (opts : List (α × ℚ)) (σ : GenState) :
    Except FakerError (α × GenState) :=
  match opts with
  | [] => .error .EmptyInput
  | (x, w) :: rest =>
    let (u, σ') := nextFloat σ
    .ok (pickWeightedGo x w rest (u * totalW ((x, w) :: rest)), σ')

/-- Modelled from the spec: the swap-to-end-and-shrink step of the partial
Fisher-Yates selection: the slot at `i` receives the last element and the
list is shortened by one. -/
def swapRemove {α : Type} (l : List α) (i : Nat) : List α :=
  match l.getLast? with
  | none => []
  | some b => (l.set i b).dropLast

/-- Modelled from the spec: the without-replacement selection loop: draw an
index into the live region, emit that element, swap-to-end-and-shrink, and
repeat `count` times. -/
def pickSetGo {α : Type} : Nat → List α → GenState → List α × GenState
  | 0, _, σ => ([], σ)
  | _ + 1, [], σ => ([], σ)
  | k + 1, x :: rest, σ =>
    let pool := x :: rest
    let (r, σ') := drawNat σ
    let i := r % pool.length
    let (out, σ'') := pickSetGo k (swapRemove pool i) σ'
    (pool.getD i x :: out, σ'')

/-- Modelled from the spec: the with-replacement selection loop used when
duplicates are allowed: `count` independent uniform picks. -/
def pickRep {α : Type} : Nat → α → List α → GenState → List α × GenState
  | 0, _, _, σ => ([], σ)
  | k + 1, d, opts, σ =>
    let (r, σ') := drawNat σ
    let (out, σ'') := pickRep k d opts σ'
    (opts.getD (r % opts.length) d :: out, σ'')

/-- Modelled from the spec: `pickSet(options, count, {allowDuplicates})`.
With duplicates disallowed, `count > len(options)` fails with
`InvalidCount`; otherwise a Fisher-Yates-style partial shuffle draws
`count` elements without replacement.  With duplicates allowed the picks
are independent (`EmptyInput` on an empty list). -/
def pickSet {α : Type} (opts : List α) (count : Nat) (allowDuplicates : Bool)
    (σ : GenState) : Except FakerError (List α × GenState) :=
  if allowDuplicates then
    match opts with
    | [] => .error .EmptyInput
    | x :: rest => .ok (pickRep count x (x :: rest) σ)
  else if opts.length < count then .error .InvalidCount
  else .ok (pickSetGo count opts σ)

/-- Decimal digit character for a value below ten. -/
def digitChar (n : Nat) : Char := Char.ofNat (48 + n)

/-- Modelled from the spec: a run of `k` independently drawn decimal digit
characters (each the digit placeholder resolution `int({0,9})`). -/
def digitsGo : Nat → GenState → List Char × GenState
  | 0, σ => ([], σ)
  | k + 1, σ =>
    let (r, σ') := drawNat σ
    let (cs, σ'') := digitsGo k σ'
    (digitChar (r % 10) :: cs, σ'')

/-- Modelled from the spec: a generated digit-sequence "number string".
With `allowLeadingZero = false` (the default policy) the first digit is
drawn from `1..9`; otherwise every digit is drawn from `0..9`. -/
def numericString (len : Nat) (allowLeadingZero : Bool) (σ : GenState) :
    String × GenState :=
  match len with
  | 0 => ("", σ)
  | k + 1 =>
    if allowLeadingZero then
      let (cs, σ') := digitsGo (k + 1) σ
      (String.mk cs, σ')
    else
      let (r, σ') := drawNat σ
      let (cs, σ'') := digitsGo k σ'
      (String.mk (digitChar (1 + r % 9) :: cs), σ'')

/-- Modelled from the spec: a generated building number: a locale format of
3 to 5 digit placeholders is picked, then filled as a number string with
leading zeros suppressed. -/
def buildingNumber (σ : GenState) : String × GenState :=
  match pick [3, 4, 5] σ with
  | .ok (len, σ') => numericString len false σ'
  | .error _ => ("", σ)

/-- Modelled from the spec: TransliterationMap, a static mapping from
accented/Cyrillic characters to ASCII equivalents (externally supplied
dataset; a representative sample is embedded here). -/
def charMapping : List (Char × String) :=
  [('é', "e"), ('è', "e"), ('ê', "e"), ('ë', "e"),
   ('à', "a"), ('á', "a"), ('â', "a"), ('ä', "a"),
   ('ì', "i"), ('í', "i"), ('î', "i"), ('ï', "i"),
   ('ò', "o"), ('ó', "o"), ('ô', "o"), ('ö', "o"),
   ('ù', "u"), ('ú', "u"), ('û', "u"), ('ü', "u"),
   ('ç', "c"), ('ñ', "n"), ('ß', "ss"),
   ('А', "A"), ('м', "m"), ('о', "o"), ('с', "s"), ('Ф', "F")]

/-- Modelled from the spec: a single character's transliteration: mapped
characters go through the map, other ASCII characters pass unchanged, and
characters with no mapping and no ASCII decomposition are dropped. -/
def transliterateChar (c : Char) : String :=
  match charMapping.find? (fun p => p.1 = c) with
  | some p => p.2
  | none => if c.toNat < 128 then String.singleton c else ""

/-- Modelled from the spec: `transliterate(input)` maps each character
through the TransliterationMap, dropping unmappable ones. -/
def transliterate (s : String) : String :=
  String.join (s.toList.map transliterateChar)

/-- Base-36 digit character in the fixed lowercase-alphanumeric alphabet. -/
def base36Char (n : Nat) : Char :=
  if n < 10 then digitChar n else Char.ofNat (87 + n)

/-- Fixed-width base-36 rendering (little-endian digit extraction). -/
def base36Fixed : Nat → Nat → List Char
  | 0, _ => []
  | k + 1, v => base36Char (v % 36) :: base36Fixed k (v / 36)

/-- Modelled from the spec: the deterministic short hash of the original
input used by the fallback encoder: a pure fold over the input's character
codes, reduced modulo `36 ^ 6`. -/
def fallbackHashVal (s : String) : Nat :=
  s.toList.foldl (fun h c => (h * 31 + c.toNat) % 2176782336) 7

/-- Modelled from the spec: the fallback token: the deterministic hash of
`original`, encoded in the fixed lowercase-alphanumeric alphabet at the
fixed policy length of 6 characters. -/
def fallbackToken (original : String) : String :=
  String.mk (base36Fixed 6 (fallbackHashVal original))

/-- Check for an empty or whitespace-only string. -/
def isBlank (s : String) : Bool := s.toList.all Char.isWhitespace

/-- Modelled from the spec: `ensureNonEmpty(input, original)` keeps `input`
unless it is empty or whitespace-only, in which case it falls back to the
deterministic token derived from `original`. -/
def ensureNonEmpty (input original : String) : String :=
  if isBlank input then fallbackToken original else input

/-- Modelled from the spec: `ensureNonEmpty` as seen from the stateful
generation context: it neither reads nor advances the PRNG state. -/
def ensureNonEmptyS (input original : String) (σ : GenState) :
    String × GenState :=
  (ensureNonEmpty input original, σ)

/-- Lowercase-alphanumeric character predicate (the fallback alphabet). -/
def isLowerAlnumChar (c : Char) : Bool :=
  (97 ≤ c.toNat && c.toNat ≤ 122) || (48 ≤ c.toNat && c.toNat ≤ 57)

/-- Modelled from the spec: the generator calls available to a consumer of
the core, closed under sequencing and seed scoping. -/
inductive GenCall where
  | intC (min max : Int)
  | floatC (min max : ℚ) (prec : Option Nat)
  | pickIdx (n : Nat)
  | numeric (len : Nat) (allowLeadingZero : Bool)
  | scope (v : Nat) (body : GenCall)
  | seq (a b : GenCall)

/-- Outputs produced by generator calls. -/
inductive GenOut where
  | int (i : Int)
  | rat (q : ℚ)
  | str (s : String)
  | pair (a b : GenOut)
deriving DecidableEq, Repr

/-- Modelled from the spec: the interpreter of generator call sequences over
the shared state.  `scoped v body` snapshots the state, applies the seed,
runs the body, and restores the snapshot on both exit paths (normal return
and error); `seq` propagates errors and threads the state. -/
def runCall : GenCall → GenState → Except FakerError GenOut × GenState
  | .intC mn mx, σ =>
    match intS mn mx σ with
    | .ok (v, σ') => (.ok (.int v), σ')
    | .error e => (.error e, σ)
  | .floatC mn mx p, σ =>
    match floatS mn mx p σ with
    | .ok (v, σ') => (.ok (.rat v), σ')
    | .error e => (.error e, σ)
  | .pickIdx n, σ =>
    match pick (List.range n) σ with
    | .ok (v, σ') => (.ok (.int v), σ')
    | .error e => (.error e, σ)
  | .numeric len alz, σ =>
    let (s, σ') := numericString len alz σ
    (.ok (.str s), σ')
  | .scope v body, σ =>
    let (r, _) := runCall body (setSeed v σ)
    (r, σ)
  | .seq a b, σ =>
    match runCall a σ with
    | (.ok oa, σ') =>
      match runCall b σ' with
      | (.ok ob, σ'') => (.ok (.pair oa ob), σ'')
      | (.error e, σ'') => (.error e, σ'')
    | (.error e, σ') => (.error e, σ')

/-- Decimal rendering of a natural number (the template-literal rendering
`${n}` used by the image module's URL builders): little-endian digit
extraction, driven by a fuel argument that always exceeds the digit count. -/
def natDecGo : Nat → Nat → List Char → List Char
  | 0, _, acc => acc
  | fuel + 1, n, acc =>
    if n < 10 then digitChar (n % 10) :: acc
    else natDecGo fuel (n / 10) (digitChar (n % 10) :: acc)

/-- Decimal rendering of a natural number as a string. -/
def natDec (n : Nat) : String := String.mk (natDecGo (n + 1) n [])

/-- Decimal digit character predicate. -/
def isDigitChar (c : Char) : Bool := 48 ≤ c.toNat && c.toNat ≤ 57

/-- Alphanumeric character predicate (the alphabet of
`faker.string.alphanumeric`, which draws the picsum seed string). -/
def isAlnumChar (c : Char) : Bool :=
  (48 ≤ c.toNat && c.toNat ≤ 57) || (65 ≤ c.toNat && c.toNat ≤ 90) ||
    (97 ≤ c.toNat && c.toNat ≤ 122)

/-- Base of every picsum URL, up to and including the seed segment marker
(from `urlPicsumPhotos` in `src/modules/image/index.ts`). -/
def picsumBase : String := "https://picsum.photos/seed/"

/-- Embedded from `urlPicsumPhotos` in `src/modules/image/index.ts`.
`seedStr` stands for the random alphanumeric seed drawn by
`faker.string.alphanumeric({ length: { min: 5, max: 10 } })` (that helper is
outside the sample); the remaining parameters are the method's options, all
provided.  The query-string construction mirrors the source: a `?` when
grayscale or a valid blur (1..10) is present, `grayscale` first, `&` when
both, then `blur={blur}`. -/
def urlPicsumPhotos (seedStr : String) (width height : Nat) (grayscale : Bool)
    (blur : Nat) : String :=
  picsumBase ++ seedStr ++ "/" ++ natDec width ++ "/" ++ natDec height ++
    (if grayscale = true ∨ (1 ≤ blur ∧ blur ≤ 10) then
      "?" ++ (if grayscale = true then "grayscale" else "") ++
        (if grayscale = true ∧ (1 ≤ blur ∧ blur ≤ 10) then "&" else "") ++
        (if 1 ≤ blur ∧ blur ≤ 10 then "blur=" ++ natDec blur else "")
    else "")

/-- Base URL of the person-portrait assets (from `personPortrait` in
`src/modules/image/index.ts`). -/
def portraitBaseURL : String :=
  "https://cdn.jsdelivr.net/gh/faker-js/assets-person-portrait"

/-- Options of `personPortrait` (both optional in the source). -/
structure PersonPortraitOptions where
  sex : Option String := none
  size : Option Nat := none

/-- Values `faker.person.sexType()` can draw (that helper is outside the
sample; its range is the two sexes named by the method's documentation). -/
def portraitSexes : List String := ["female", "male"]

/-- Sizes admitted by `personPortrait`'s `size` option. -/
def portraitSizes : List Nat := [512, 256, 128, 64, 32]

/-- Embedded from `personPortrait` in `src/modules/image/index.ts`.
`drawnSex` stands for the `faker.person.sexType()` draw used when no sex is
given; `drawnN` stands for the `faker.number.int({ min: 0, max: 99 })` draw;
both helpers are outside the sample.  Defaults mirror the source:
`sex = options.sex ?? drawn`, `size = options.size ?? 512`. -/
def personPortrait (options : PersonPortraitOptions) (drawnSex : String)
    (drawnN : Nat) : String :=
  let sex := options.sex.getD drawnSex
  let size := options.size.getD 512
  portraitBaseURL ++ "/" ++ sex ++ "/" ++ natDec size ++ "/" ++ natDec drawnN ++ ".jpg"

/-- Every asset path `personPortrait` can name: two sexes, five sizes, and
the hundred indices `0..99`. -/
def portraitURLs : List String :=
  portraitSexes.flatMap fun sx =>
    portraitSizes.flatMap fun sz =>
      (List.range 100).map fun n =>
        portraitBaseURL ++ "/" ++ sx ++ "/" ++ natDec sz ++ "/" ++ natDec n ++ ".jpg"

instance {ε α : Type} [DecidableEq ε] [DecidableEq α] :
    DecidableEq (Except ε α) := fun x y =>
  match x, y with
  | .error e, .error f =>
    if h : e = f then isTrue (by rw [h])
    else isFalse (by intro hc; injection hc; contradiction)
  | .error _, .ok _ => isFalse (by intro hc; exact Except.noConfusion hc)
  | .ok _, .error _ => isFalse (by intro hc; exact Except.noConfusion hc)
  | .ok a, .ok b =>
    if h : a = b then isTrue (by rw [h])
    else isFalse (by intro hc; injection hc; contradiction)

theorem drawNat_fst_lt (σ : GenState) : (drawNat σ).1 < M := by
  simpa [drawNat] using Nat.mod_lt _ (show 0 < M by decide)

theorem nextFloat_nonneg (σ : GenState) : 0 ≤ (nextFloat σ).1 := by
  simp only [nextFloat, drawNat]
  positivity

theorem nextFloat_lt_one (σ : GenState) : (nextFloat σ).1 < 1 := by
  have h : (drawNat σ).1 < M := drawNat_fst_lt σ
  simp only [nextFloat]
  rw [div_lt_one (by norm_num [M])]
  exact_mod_cast lt_of_lt_of_le h (by norm_num [M])

/-- C4: the Bounded Numeric Sampler's edge policy: a range with
`min == max` deterministically returns that value for both `int` and
`float` (never an error), while `min > max` fails with exactly the
`InvalidRange` error kind for both. -/
theorem C4_edge_policy (a : Int) (x : ℚ) (p : Option Nat) (σ : GenState) :
    intS a a σ = .ok (a, (drawNat σ).2) ∧
    floatS x x p σ = .ok (x, σ) ∧
    (∀ mn mx : Int, mx < mn → intS mn mx σ = .error .InvalidRange) ∧
    (∀ qmn qmx : ℚ, qmx < qmn → floatS qmn qmx p σ = .error .InvalidRange) := by
  refine ⟨?_, ?_, ?_, ?_⟩
  · simp [intS, drawNat, Int.emod_one]
  · simp [floatS]
  · intro mn mx h
    simp [intS, h]
  · intro qmn qmx h
    simp [floatS, h, not_lt_of_lt h]

/-- C4 witness: concrete instances of the edge policy. -/
theorem C4_edge_policy_witness :
    intS 3 3 ⟨0, 0⟩ = .ok (3, (drawNat ⟨0, 0⟩).2) ∧
    floatS (1 / 2) (1 / 2) none ⟨0, 0⟩ = .ok (1 / 2, ⟨0, 0⟩) ∧
    intS 5 2 ⟨0, 0⟩ = .error .InvalidRange ∧
    floatS 1 0 none ⟨0, 0⟩ = .error .InvalidRange := by
  obtain ⟨h1, h2, h3, h4⟩ := C4_edge_policy 3 (1 / 2) none ⟨0, 0⟩
  exact ⟨h1, h2, h3 5 2 (by decide), h4 1 0 (by decide)⟩

theorem numericString_head_ne_zero (len : Nat) (σ : GenState) :
    (numericString len false σ).1.toList.head? ≠ some '0' := by
  cases len with
  | zero => simp [numericString]
  | succ k =>
    simp only [numericString, Bool.false_eq_true, if_false]
    have h : (drawNat σ).1 % 9 < 9 := Nat.mod_lt _ (by decide)
    revert h
    generalize (drawNat σ).1 % 9 = d
    intro h
    interval_cases d <;> simp [String.toList] <;> decide

/-- C8: a digit-sequence "number string" generated with
`allowLeadingZero = false` (the default policy) never starts with the
character `'0'`; in particular no generated building number does. -/
theorem C8_no_leading_zero (len : Nat) (σ : GenState) :
    (numericString len false σ).1.toList.head? ≠ some '0' ∧
    (buildingNumber σ).1.toList.head? ≠ some '0' := by
  refine ⟨numericString_head_ne_zero len σ, ?_⟩
  simp only [buildingNumber, pick]
  exact numericString_head_ne_zero _ _

theorem base36Fixed_length (k v : Nat) : (base36Fixed k v).length = k := by
  induction k generalizing v with
  | zero => rfl
  | succ k ih => simp [base36Fixed, ih]

theorem base36Char_lowerAlnum :
    ∀ m : Nat, m < 36 → isLowerAlnumChar (base36Char m) = true := by
  decide

theorem base36Fixed_lowerAlnum (k v : Nat) :
    ∀ c ∈ base36Fixed k v, isLowerAlnumChar c = true := by
  induction k generalizing v with
  | zero => simp [base36Fixed]
  | succ k ih =>
    intro c hc
    rcases List.mem_cons.1 hc with h | h
    · subst h
      exact base36Char_lowerAlnum _ (Nat.mod_lt _ (by decide))
    · exact ih _ c h

/-- C2: when transliteration yields an empty or whitespace-only string, the
fallback token returned by `ensureNonEmpty` is a pure function of the
original input (identical across any two PRNG states, which are also left
untouched), and is the fixed 6-character token over the lowercase
alphanumeric alphabet. -/
theorem C2_fallback_deterministic (original : String) (σ₁ σ₂ : GenState)
    (h : isBlank (transliterate original) = true) :
    (ensureNonEmptyS (transliterate original) original σ₁).1 =
      (ensureNonEmptyS (transliterate original) original σ₂).1 ∧
    (ensureNonEmptyS (transliterate original) original σ₁).2 = σ₁ ∧
    (ensureNonEmptyS (transliterate original) original σ₁).1 =
      fallbackToken original ∧
    (fallbackToken original).length = 6 ∧
    ∀ c ∈ (fallbackToken original).toList, isLowerAlnumChar c = true := by
  refine ⟨rfl, rfl, ?_, ?_, ?_⟩
  · simp [ensureNonEmptyS, ensureNonEmpty, h]
  · show (String.mk (base36Fixed 6 (fallbackHashVal original))).length = 6
    simpa [String.length] using base36Fixed_length 6 (fallbackHashVal original)
  · intro c hc
    exact base36Fixed_lowerAlnum 6 (fallbackHashVal original) c hc

/-- C2 witness: the CJK input of the repository's own test suite. -/
theorem C2_fallback_deterministic_witness :
    isBlank (transliterate "大羽") = true ∧
    (ensureNonEmptyS (transliterate "大羽") "大羽" ⟨0, 0⟩).1 =
      fallbackToken "大羽" ∧
    (fallbackToken "大羽").length = 6 := by
  have h := C2_fallback_deterministic "大羽" ⟨0, 0⟩ ⟨5, 7⟩ (by decide)
  exact ⟨by decide, h.2.2.1, h.2.2.2.1⟩

theorem prngNext_lt (s : Nat) : prngNext s < M :=
  Nat.mod_lt _ (by decide)

theorem div_pow_ten_bounds {a b : ℚ} {p : Nat} {k : Int}
    (h1 : ⌈a * 10 ^ p⌉ ≤ k) (h2 : k ≤ ⌊b * 10 ^ p⌋) :
    a ≤ (k : ℚ) / 10 ^ p ∧ (k : ℚ) / 10 ^ p ≤ b ∧
      decimalsLe ((k : ℚ) / 10 ^ p) p := by
  have fpos : (0 : ℚ) < 10 ^ p := by positivity
  refine ⟨?_, ?_, ?_⟩
  · rw [le_div_iff fpos]
    calc a * 10 ^ p ≤ (⌈a * 10 ^ p⌉ : ℚ) := Int.le_ceil _
    _ ≤ (k : ℚ) := by exact_mod_cast h1
  · rw [div_le_iff fpos]
    calc (k : ℚ) ≤ (⌊b * 10 ^ p⌋ : ℚ) := by exact_mod_cast h2
    _ ≤ b * 10 ^ p := Int.floor_le _
  · show ((k : ℚ) / 10 ^ p * 10 ^ p).den = 1
    rw [div_mul_cancel₀ _ (ne_of_gt fpos)]
    exact Rat.den_intCast k

/-- C3 (amended): for every range with `min <= max`, `int` succeeds and its
result lies in `[min, max]`; every number returned by `float` lies in
`[min, max]`, and when `min < max` its decimal digits never exceed the
requested precision; when `min == max` the bound is returned unchanged (so
its digits may exceed the precision — see the counterexample); the
geocoordinate wrapper defaults an unspecified precision to 4. -/
theorem C3_range_containment_amended :
    (∀ (mn mx : Int) (σ : GenState), mn ≤ mx →
      ∃ r : Int, intS mn mx σ = .ok (r, (drawNat σ).2) ∧ mn ≤ r ∧ r ≤ mx) ∧
    (∀ (a b : ℚ) (p : Nat) (σ : GenState) (x : ℚ) (σ' : GenState), a ≤ b →
      floatS a b (some p) σ = .ok (x, σ') →
      a ≤ x ∧ x ≤ b ∧ (a < b → decimalsLe x p)) ∧
    (∀ (a b : ℚ) (σ : GenState) (x : ℚ) (σ' : GenState), a ≤ b →
      floatS a b none σ = .ok (x, σ') → a ≤ x ∧ x ≤ b) ∧
    (∀ (a b : ℚ) (σ : GenState), latitudeS a b none σ = floatS a b (some 4) σ) := by
  refine ⟨?_, ?_, ?_, fun a b σ => rfl⟩
  · intro mn mx σ h
    have hnl : ¬ mx < mn := not_lt.2 h
    have hne : mx - mn + 1 ≠ 0 := by omega
    have hpos : (0 : Int) < mx - mn + 1 := by omega
    refine ⟨mn + (prngNext σ.mt : Int) % (mx - mn + 1), ?_, ?_, ?_⟩
    · simp [intS, hnl, drawNat]
    · have := Int.emod_nonneg (prngNext σ.mt : Int) hne
      omega
    · have := Int.emod_lt_of_pos (prngNext σ.mt : Int) hpos
      omega
  · intro a b p σ x σ' hab hok
    unfold floatS at hok
    rw [if_neg (not_lt.2 hab)] at hok
    by_cases heq : a = b
    · rw [if_pos heq] at hok
      simp only [Except.ok.injEq, Prod.mk.injEq] at hok
      obtain ⟨rfl, -⟩ := hok
      exact ⟨le_refl a, hab, fun hlt => absurd heq (ne_of_lt hlt)⟩
    · rw [if_neg heq] at hok
      dsimp only [drawNat] at hok
      by_cases hhi : ⌊b * 10 ^ p⌋ < ⌈a * (10 : ℚ) ^ p⌉
      · rw [if_pos hhi] at hok
        simp at hok
      · rw [if_neg hhi] at hok
        simp only [Except.ok.injEq, Prod.mk.injEq] at hok
        obtain ⟨hx, -⟩ := hok
        subst hx
        have hle : ⌈a * (10 : ℚ) ^ p⌉ ≤ ⌊b * 10 ^ p⌋ := not_lt.1 hhi
        have hne : ⌊b * 10 ^ p⌋ - ⌈a * (10 : ℚ) ^ p⌉ + 1 ≠ 0 := by omega
        have hpos : (0 : Int) < ⌊b * 10 ^ p⌋ - ⌈a * (10 : ℚ) ^ p⌉ + 1 := by omega
        have hm0 := Int.emod_nonneg (prngNext σ.mt : Int) hne
        have hm1 := Int.emod_lt_of_pos (prngNext σ.mt : Int) hpos
        obtain ⟨g1, g2, g3⟩ := div_pow_ten_bounds (a := a) (b := b) (p := p) (k :=
            ⌈a * (10 : ℚ) ^ p⌉ +
              (prngNext σ.mt : Int) % (⌊b * 10 ^ p⌋ - ⌈a * (10 : ℚ) ^ p⌉ + 1))
          (by omega) (by omega)
        exact ⟨g1, g2, fun _ => g3⟩
  · intro a b σ x σ' hab hok
    unfold floatS at hok
    rw [if_neg (not_lt.2 hab)] at hok
    by_cases heq : a = b
    · rw [if_pos heq] at hok
      simp only [Except.ok.injEq, Prod.mk.injEq] at hok
      obtain ⟨rfl, -⟩ := hok
      exact ⟨le_refl a, hab⟩
    · rw [if_neg heq] at hok
      dsimp only [nextFloat, drawNat] at hok
      simp only [Except.ok.injEq, Prod.mk.injEq] at hok
      obtain ⟨hx, -⟩ := hok
      subst hx
      have hu0 : (0 : ℚ) ≤ (prngNext σ.mt : ℚ) / (M : ℚ) := by positivity
      have hu1 : (prngNext σ.mt : ℚ) / (M : ℚ) ≤ 1 := by
        rw [div_le_one (by norm_num [M])]
        exact_mod_cast (prngNext_lt σ.mt).le
      have hba : (0 : ℚ) ≤ b - a := by linarith
      constructor
      · nlinarith [mul_nonneg hu0 hba]
      · nlinarith [mul_le_of_le_one_left hba hu1]

/-- C3 counterexample: the claim as stated fails: with `min = max = 0.12345`
and the default precision 4, `float` returns `0.12345`, which has five
decimal digits — the `min == max` edge policy bypasses precision scaling. -/
theorem C3_counterexample :
    floatS (2469 / 20000) (2469 / 20000) (some 4) ⟨0, 0⟩ =
      .ok (2469 / 20000, ⟨0, 0⟩) ∧
    ¬ decimalsLe (2469 / 20000) 4 := by
  constructor
  · simp [floatS]
  · intro hd
    rw [decimalsLe] at hd
    have he : (2469 / 20000 : ℚ) * 10 ^ 4 = 2469 / 2 := by norm_num
    rw [he, Rat.den_eq_one_iff] at hd
    have h2 : (((2469 : ℚ) / 2).num : ℚ) * 2 = 2469 := by rw [hd]; norm_num
    have h3 : ((2469 : ℚ) / 2).num * 2 = 2469 := by exact_mod_cast h2
    omega

/-- C3 witness: concrete instances of the amended containment statement. -/
theorem C3_range_containment_amended_witness :
    (∃ r : Int, intS 1 10 ⟨0, 0⟩ = .ok (r, (drawNat ⟨0, 0⟩).2) ∧ 1 ≤ r ∧ r ≤ 10) ∧
    ((0 : ℚ) ≤ 17 / 25 ∧ (17 : ℚ) / 25 ≤ 1 ∧ ((0 : ℚ) < 1 → decimalsLe (17 / 25) 2)) ∧
    ((0 : ℚ) ≤ 1013904223 / 4294967296 ∧ (1013904223 : ℚ) / 4294967296 ≤ 1) ∧
    latitudeS 0 1 none ⟨0, 0⟩ = floatS 0 1 (some 4) ⟨0, 0⟩ := by
  obtain ⟨h1, h2, h3, h4⟩ := C3_range_containment_amended
  refine ⟨h1 1 10 ⟨0, 0⟩ (by decide), ?_, ?_, h4 0 1 ⟨0, 0⟩⟩
  · refine h2 0 1 2 ⟨0, 0⟩ (17 / 25) ⟨1013904223, 1⟩ (by norm_num) ?_
    show floatS 0 1 (some 2) ⟨0, 0⟩ = _
    norm_num [floatS, drawNat, prngNext, M]
  · refine h3 0 1 ⟨0, 0⟩ (1013904223 / 4294967296) ⟨1013904223, 1⟩ (by norm_num) ?_
    show floatS 0 1 none ⟨0, 0⟩ = _
    norm_num [floatS, nextFloat, drawNat, prngNext, M]

theorem totalW_nil {α : Type} : totalW ([] : List (α × ℚ)) = 0 := rfl

theorem totalW_cons {α : Type} (x : α) (w : ℚ) (l : List (α × ℚ)) :
    totalW ((x, w) :: l) = w + totalW l := rfl

theorem totalW_nonneg {α : Type} (l : List (α × ℚ))
    (h : ∀ p ∈ l, 0 ≤ p.2) : 0 ≤ totalW l := by
  induction l with
  | nil => simp [totalW_nil]
  | cons p l ih =>
    obtain ⟨y, v⟩ := p
    rw [totalW_cons]
    have h1 : (0 : ℚ) ≤ v := h (y, v) (List.mem_cons_self _ _)
    have h2 : 0 ≤ totalW l := ih fun q hq => h q (List.mem_cons_of_mem _ hq)
    linarith

theorem cumW_zero {α : Type} (l : List (α × ℚ)) : cumW l 0 = 0 := rfl

theorem cumW_cons_succ {α : Type} (x : α) (w : ℚ) (l : List (α × ℚ)) (k : Nat) :
    cumW ((x, w) :: l) (k + 1) = w + cumW l k := by
  simp [cumW, List.take_succ_cons, totalW_cons]

theorem pickWeightedGo_spec {α : Type} :
    ∀ (rest : List (α × ℚ)) (x : α) (w : ℚ) (r : ℚ),
      r < totalW ((x, w) :: rest) →
      ∃ (i : Nat) (h : i < ((x, w) :: rest).length),
        pickWeightedGo x w rest r = (((x, w) :: rest).get ⟨i, h⟩).1 ∧
        r < cumW ((x, w) :: rest) (i + 1) ∧
        ∀ j, j < i → cumW ((x, w) :: rest) (j + 1) ≤ r := by
  intro rest
  induction rest with
  | nil =>
    intro x w r hr
    rw [totalW_cons, totalW_nil] at hr
    refine ⟨0, by simp, ?_, ?_, by omega⟩
    · simp [pickWeightedGo]
    · rw [cumW_cons_succ, cumW_zero]
      linarith
  | cons p rest' ih =>
    intro x w r hr
    obtain ⟨y, w'⟩ := p
    by_cases hlt : r < w
    · refine ⟨0, by simp, ?_, ?_, by omega⟩
      · simp [pickWeightedGo, hlt]
      · rw [cumW_cons_succ, cumW_zero]
        linarith
    · have hrec : r - w < totalW ((y, w') :: rest') := by
        rw [totalW_cons] at hr
        linarith
      obtain ⟨i, hi, hval, hcum, hmin⟩ := ih y w' (r - w) hrec
      refine ⟨i + 1, by simpa using hi, ?_, ?_, ?_⟩
      · simpa [pickWeightedGo, hlt] using hval
      · rw [cumW_cons_succ]
        linarith [hcum]
      · intro j hj
        cases j with
        | zero =>
          rw [cumW_cons_succ, cumW_zero]
          linarith [not_lt.1 hlt]
        | succ j' =>
          have := hmin j' (by omega)
          rw [cumW_cons_succ]
          linarith [this]

/-- C5: for a non-empty weighted option list with positive weights,
`pickWeighted` draws `r = nextFloat() * totalWeight` and returns exactly the
option at the least index whose cumulative prefix weight strictly exceeds
`r` (so at a boundary tie the lower index wins, and the result is uniquely
determined by the list and `r`). -/
theorem C5_pickWeighted_first_exceed {α : Type} (x : α) (w : ℚ)
    (rest : List (α × ℚ)) (σ : GenState)
    (hw : 0 < w) (hrest : ∀ p ∈ rest, 0 < p.2) :
    ∃ (i : Nat) (h : i < ((x, w) :: rest).length),
      pickWeighted ((x, w) :: rest) σ =
        .ok ((((x, w) :: rest).get ⟨i, h⟩).1, (nextFloat σ).2) ∧
      (nextFloat σ).1 * totalW ((x, w) :: rest) < cumW ((x, w) :: rest) (i + 1) ∧
      ∀ j, j < i →
        cumW ((x, w) :: rest) (j + 1) ≤ (nextFloat σ).1 * totalW ((x, w) :: rest) := by
  have htot : 0 < totalW ((x, w) :: rest) := by
    rw [totalW_cons]
    have := totalW_nonneg rest fun p hp => (hrest p hp).le
    linarith
  have hr : (nextFloat σ).1 * totalW ((x, w) :: rest) < totalW ((x, w) :: rest) :=
    mul_lt_of_lt_one_left htot (nextFloat_lt_one σ)
  obtain ⟨i, hi, hval, hcum, hmin⟩ :=
    pickWeightedGo_spec rest x w ((nextFloat σ).1 * totalW ((x, w) :: rest)) hr
  refine ⟨i, hi, ?_, hcum, hmin⟩
  rcases hnf : nextFloat σ with ⟨u, σ'⟩
  simp only [pickWeighted, hnf]
  rw [hnf] at hval
  simp only at hval
  rw [hval]

/-- C5 witness: a concrete two-option weighted draw. -/
theorem C5_pickWeighted_first_exceed_witness :
    ∃ (i : Nat) (h : i < (((1, 2) : Nat × ℚ) :: [(2, 3)]).length),
      pickWeighted (((1, 2) : Nat × ℚ) :: [(2, 3)]) ⟨0, 0⟩ =
        .ok (((((1, 2) : Nat × ℚ) :: [(2, 3)]).get ⟨i, h⟩).1, (nextFloat ⟨0, 0⟩).2) ∧
      (nextFloat ⟨0, 0⟩).1 * totalW (((1, 2) : Nat × ℚ) :: [(2, 3)]) <
        cumW (((1, 2) : Nat × ℚ) :: [(2, 3)]) (i + 1) ∧
      ∀ j, j < i →
        cumW (((1, 2) : Nat × ℚ) :: [(2, 3)]) (j + 1) ≤
          (nextFloat ⟨0, 0⟩).1 * totalW (((1, 2) : Nat × ℚ) :: [(2, 3)]) := by
  refine C5_pickWeighted_first_exceed 1 2 [(2, 3)] ⟨0, 0⟩ (by norm_num) ?_
  intro p hp
  rw [List.mem_singleton] at hp
  rw [hp]
  norm_num

theorem getLast?_of_ne_nil {α : Type} {l : List α} (h : l ≠ []) :
    ∃ b, l.getLast? = some b := by
  cases hgl : l.getLast? with
  | none => exact absurd (List.getLast?_eq_none_iff.1 hgl) h
  | some b => exact ⟨b, rfl⟩

theorem swapRemove_length {α : Type} (l : List α) (i : Nat) (h : l ≠ []) :
    (swapRemove l i).length = l.length - 1 := by
  obtain ⟨b, hb⟩ := getLast?_of_ne_nil h
  simp [swapRemove, hb]

theorem swapRemove_cons_cons {α : Type} (x y : α) (t : List α) (i : Nat) :
    swapRemove (x :: y :: t) (i + 1) = x :: swapRemove (y :: t) i := by
  obtain ⟨b, hb⟩ := getLast?_of_ne_nil (List.cons_ne_nil y t)
  have h2 : (x :: y :: t).getLast? = some b := by
    rw [List.getLast?_cons_cons, hb]
  simp only [swapRemove, hb, h2]
  show (x :: (y :: t).set i b).dropLast = x :: ((y :: t).set i b).dropLast
  cases i with
  | zero => exact List.dropLast_cons₂
  | succ j => exact List.dropLast_cons₂

theorem getD_cons_swapRemove_perm {α : Type} (d : α) :
    ∀ (l : List α) (i : Nat), i < l.length →
      (l.getD i d) :: swapRemove l i ~ l := by
  intro l
  induction l with
  | nil => intro i hi; simp at hi
  | cons x rest ih =>
    intro i hi
    cases rest with
    | nil =>
      have hi0 : i = 0 := by simpa using hi
      subst hi0
      simp [swapRemove]
    | cons y t =>
      cases i with
      | zero =>
        obtain ⟨b, hb⟩ := getLast?_of_ne_nil (List.cons_ne_nil y t)
        have h2 : (x :: y :: t).getLast? = some b := by
          rw [List.getLast?_cons_cons, hb]
        show x :: swapRemove (x :: y :: t) 0 ~ x :: y :: t
        simp only [swapRemove, h2]
        show x :: (b :: y :: t).dropLast ~ x :: y :: t
        rw [List.dropLast_cons₂]
        refine List.Perm.cons x ?_
        have hsplit : (y :: t).dropLast ++ [b] = y :: t :=
          List.dropLast_append_getLast? b hb
        calc b :: (y :: t).dropLast
            ~ (y :: t).dropLast ++ [b] := (List.perm_append_singleton b _).symm
          _ = y :: t := hsplit
      | succ j =>
        have hj : j < (y :: t).length := by simpa using hi
        rw [swapRemove_cons_cons]
        show (y :: t).getD j d :: x :: swapRemove (y :: t) j ~ x :: y :: t
        calc (y :: t).getD j d :: x :: swapRemove (y :: t) j
            ~ x :: (y :: t).getD j d :: swapRemove (y :: t) j :=
              List.Perm.swap x _ _
          _ ~ x :: y :: t := List.Perm.cons x (ih j hj)

theorem pickSetGo_spec {α : Type} :
    ∀ (k : Nat) (l : List α) (σ : GenState), k ≤ l.length →
      (pickSetGo k l σ).1.length = k ∧ (pickSetGo k l σ).1 <+~ l := by
  intro k
  induction k with
  | zero => exact fun l σ _ => ⟨rfl, List.nil_subperm⟩
  | succ k ih =>
    intro l σ hk
    cases l with
    | nil => simp at hk
    | cons x rest =>
      simp only [pickSetGo, drawNat]
      have hlen : 0 < (x :: rest).length := by simp
      have hi : prngNext σ.mt % (x :: rest).length < (x :: rest).length :=
        Nat.mod_lt _ hlen
      have hk' : k ≤ (swapRemove (x :: rest)
          (prngNext σ.mt % (x :: rest).length)).length := by
        rw [swapRemove_length _ _ (List.cons_ne_nil x rest)]
        simp only [List.length_cons] at hk ⊢
        omega
      obtain ⟨ihlen, ihsub⟩ := ih _ ⟨prngNext σ.mt, σ.entropy + 1⟩ hk'
      constructor
      · simpa using ihlen
      · exact ((List.subperm_cons _).2 ihsub).trans
          (getD_cons_swapRemove_perm x (x :: rest) _ hi).subperm

/-- C6 (amended): with duplicates disallowed, requesting more elements than
the option list holds fails with `InvalidCount`; otherwise `pickSet` returns
exactly `count` elements drawn without replacement from distinct positions
of the list (a sub-permutation), so every returned element occurs in the
options and, whenever the option list itself has no duplicate values, the
returned elements are pairwise distinct. -/
theorem C6_pickSet_amended (α : Type) :
    (∀ (opts : List α) (count : Nat) (σ : GenState), opts.length < count →
      pickSet opts count false σ = .error .InvalidCount) ∧
    (∀ (opts : List α) (count : Nat) (σ : GenState), count ≤ opts.length →
      ∃ res σ', pickSet opts count false σ = .ok (res, σ') ∧
        res.length = count ∧ res <+~ opts ∧ (opts.Nodup → res.Nodup) ∧
        ∀ v ∈ res, v ∈ opts) := by
  constructor
  · intro opts count σ h
    simp [pickSet, h]
  · intro opts count σ h
    obtain ⟨hlen, hsub⟩ := pickSetGo_spec count opts σ h
    refine ⟨(pickSetGo count opts σ).1, (pickSetGo count opts σ).2,
      ?_, hlen, hsub, ?_, fun v hv => hsub.subset hv⟩
    · simp [pickSet, Nat.not_lt.2 h]
    · intro hnd
      obtain ⟨l', hp, hs⟩ := hsub
      exact hp.nodup_iff.1 (hs.nodup hnd)

/-- C6 counterexample: the claim as stated fails on an option list holding
a duplicated value: drawing 2 elements without replacement from `[0, 0]`
returns `[0, 0]`, whose elements are not pairwise distinct (the draw is
without replacement over positions, not over values). -/
theorem C6_counterexample :
    (pickSet ([0, 0] : List Nat) 2 false ⟨0, 0⟩).toOption.map Prod.fst =
      some [0, 0] ∧
    ¬ ([0, 0] : List Nat).Nodup := by
  exact ⟨by decide, by decide⟩

/-- C6 witness: a concrete overdraw failure and a concrete 2-of-3 draw. -/
theorem C6_pickSet_amended_witness :
    pickSet ([10, 20] : List Nat) 3 false ⟨0, 0⟩ = .error .InvalidCount ∧
    ∃ res σ', pickSet ([10, 20, 30] : List Nat) 2 false ⟨0, 0⟩ = .ok (res, σ') ∧
      res.length = 2 ∧ res <+~ [10, 20, 30] ∧
      (([10, 20, 30] : List Nat).Nodup → res.Nodup) ∧
      ∀ v ∈ res, v ∈ [10, 20, 30] := by
  obtain ⟨h1, h2⟩ := C6_pickSet_amended Nat
  exact ⟨h1 [10, 20] 3 ⟨0, 0⟩ (by decide), h2 [10, 20, 30] 2 ⟨0, 0⟩ (by decide)⟩

theorem digitsGo_mt_congr :
    ∀ (k : Nat) (σ τ : GenState), σ.mt = τ.mt →
      (digitsGo k σ).1 = (digitsGo k τ).1 ∧
      (digitsGo k σ).2.mt = (digitsGo k τ).2.mt := by
  intro k
  induction k with
  | zero => exact fun σ τ h => ⟨rfl, h⟩
  | succ k ih =>
    intro σ τ h
    obtain ⟨h1, h2⟩ := ih ⟨prngNext σ.mt, σ.entropy + 1⟩
      ⟨prngNext τ.mt, τ.entropy + 1⟩ (by simp [h])
    rcases hA : digitsGo k ⟨prngNext σ.mt, σ.entropy + 1⟩ with ⟨cs1, τ1⟩
    rcases hB : digitsGo k ⟨prngNext τ.mt, τ.entropy + 1⟩ with ⟨cs2, τ2⟩
    rw [hA, hB] at h1 h2
    simp only at h1 h2
    constructor
    · simp only [digitsGo, drawNat, hA, hB]
      rw [h, h1]
    · simp only [digitsGo, drawNat, hA, hB]
      exact h2

theorem numericString_mt_congr (len : Nat) (alz : Bool) (σ τ : GenState)
    (h : σ.mt = τ.mt) :
    (numericString len alz σ).1 = (numericString len alz τ).1 ∧
    (numericString len alz σ).2.mt = (numericString len alz τ).2.mt := by
  cases len with
  | zero => exact ⟨rfl, h⟩
  | succ k =>
    cases alz with
    | true =>
      obtain ⟨h1, h2⟩ := digitsGo_mt_congr (k + 1) σ τ h
      rcases hA : digitsGo (k + 1) σ with ⟨cs1, τ1⟩
      rcases hB : digitsGo (k + 1) τ with ⟨cs2, τ2⟩
      rw [hA, hB] at h1 h2
      simp only at h1 h2
      constructor
      · simp only [numericString, if_true, hA, hB]
        rw [h1]
      · simp only [numericString, if_true, hA, hB]
        exact h2
    | false =>
      obtain ⟨h1, h2⟩ := digitsGo_mt_congr k ⟨prngNext σ.mt, σ.entropy + 1⟩
        ⟨prngNext τ.mt, τ.entropy + 1⟩ (by simp [h])
      rcases hA : digitsGo k ⟨prngNext σ.mt, σ.entropy + 1⟩ with ⟨cs1, τ1⟩
      rcases hB : digitsGo k ⟨prngNext τ.mt, τ.entropy + 1⟩ with ⟨cs2, τ2⟩
      rw [hA, hB] at h1 h2
      simp only at h1 h2
      constructor
      · simp only [numericString, Bool.false_eq_true, if_false, drawNat, hA, hB]
        rw [h, h1]
      · simp only [numericString, Bool.false_eq_true, if_false, drawNat, hA, hB]
        exact h2

theorem runCall_mt_congr (c : GenCall) :
    ∀ (σ τ : GenState), σ.mt = τ.mt →
      (runCall c σ).1 = (runCall c τ).1 ∧
      (runCall c σ).2.mt = (runCall c τ).2.mt := by
  induction c with
  | intC mn mx =>
    intro σ τ h
    by_cases hc : mx < mn
    · simp [runCall, intS, hc, h]
    · simp [runCall, intS, hc, drawNat, h]
  | floatC mn mx p =>
    intro σ τ h
    by_cases hc : mx < mn
    · simp [runCall, floatS, hc, h]
    · by_cases he : mn = mx
      · simp [runCall, floatS, hc, he, h]
      · cases p with
        | none => simp [runCall, floatS, hc, he, nextFloat, drawNat, h]
        | some p =>
          by_cases hh : ⌊mx * (10 : ℚ) ^ p⌋ < ⌈mn * (10 : ℚ) ^ p⌉
          · simp [runCall, floatS, hc, he, hh, h]
          · simp [runCall, floatS, hc, he, hh, drawNat, h]
  | pickIdx n =>
    intro σ τ h
    cases hr : List.range n with
    | nil => simp [runCall, pick, hr, h]
    | cons a l => simp [runCall, pick, hr, drawNat, h]
  | numeric len alz =>
    intro σ τ h
    obtain ⟨h1, h2⟩ := numericString_mt_congr len alz σ τ h
    rcases hA : numericString len alz σ with ⟨s1, τ1⟩
    rcases hB : numericString len alz τ with ⟨s2, τ2⟩
    rw [hA, hB] at h1 h2
    simp only at h1 h2
    constructor
    · simp only [runCall, hA, hB]
      rw [h1]
    · simp only [runCall, hA, hB]
      exact h2
  | scope v body ih =>
    intro σ τ h
    obtain ⟨h1, h2⟩ := ih (setSeed v σ) (setSeed v τ) (by simp [setSeed])
    rcases hA : runCall body (setSeed v σ) with ⟨r1, τ1⟩
    rcases hB : runCall body (setSeed v τ) with ⟨r2, τ2⟩
    rw [hA, hB] at h1 h2
    simp only at h1 h2
    constructor
    · simp only [runCall, hA, hB]
      exact h1
    · simp only [runCall, hA, hB]
      exact h
  | seq a b iha ihb =>
    intro σ τ h
    obtain ⟨ha1, ha2⟩ := iha σ τ h
    rcases hA : runCall a σ with ⟨ra, σa⟩
    rcases hB : runCall a τ with ⟨rb, τb⟩
    rw [hA, hB] at ha1 ha2
    simp only at ha1 ha2
    subst ha1
    obtain ⟨hb1, hb2⟩ := ihb σa τb ha2
    rcases hC : runCall b σa with ⟨rc, σc⟩
    rcases hD : runCall b τb with ⟨rd, τd⟩
    rw [hC, hD] at hb1 hb2
    simp only at hb1 hb2
    subst hb1
    cases ra with
    | error e =>
      constructor
      · simp [runCall, hA, hB]
      · simp [runCall, hA, hB, ha2]
    | ok oa =>
      cases rc with
      | error e =>
        constructor
        · simp [runCall, hA, hB, hC, hD]
        · simp [runCall, hA, hB, hC, hD, hb2]
      | ok ob =>
        constructor
        · simp [runCall, hA, hB, hC, hD]
        · simp [runCall, hA, hB, hC, hD, hb2]

/-- C1: reproducibility: for every seed and every generator-call tree,
running it immediately after `setSeed` with that seed produces the same
outputs (and the same PRNG word trajectory) regardless of the state the
generator was in before seeding — the whole-history hyperproperty behind
the library's seeded snapshot tests. -/
theorem C1_reproducibility (s : Nat) (c : GenCall) (σ₁ σ₂ : GenState) :
    (runCall c (setSeed s σ₁)).1 = (runCall c (setSeed s σ₂)).1 ∧
    (runCall c (setSeed s σ₁)).2.mt = (runCall c (setSeed s σ₂)).2.mt :=
  runCall_mt_congr c (setSeed s σ₁) (setSeed s σ₂) (by simp [setSeed])

/-- C7: `withScopedSeed` (the `scoped` call) restores the entry state on
every exit path — also when the body throws, in which case the error is
re-raised over the restored state — so a caller's subsequent call `k` runs
exactly as it would have without the scope; the statement holds at every
state `σ`, so a nested scope restores the immediately enclosing snapshot. -/
theorem C7_scoped_seed_restore (v : Nat) (body k : GenCall) (σ : GenState) :
    (runCall (.scope v body) σ).2 = σ ∧
    (∀ e, (runCall body (setSeed v σ)).1 = .error e →
      runCall (.scope v body) σ = (.error e, σ)) ∧
    (∀ oa, (runCall (.scope v body) σ).1 = .ok oa →
      runCall (.seq (.scope v body) k) σ =
        ((runCall k σ).1.map (GenOut.pair oa), (runCall k σ).2)) := by
  rcases hA : runCall body (setSeed v σ) with ⟨r, τ⟩
  refine ⟨by simp [runCall, hA], ?_, ?_⟩
  · intro e he
    simp only at he
    subst he
    simp [runCall, hA]
  · intro oa hoa
    have hr : (runCall (.scope v body) σ).1 = r := by simp [runCall, hA]
    rw [hr] at hoa
    subst hoa
    rcases hK : runCall k σ with ⟨rk, τk⟩
    cases rk with
    | ok ob => simp [runCall, hA, hK, Except.map]
    | error e => simp [runCall, hA, hK, Except.map]

/-- C7 witness: a concrete scope around a successful draw followed by a
caller draw, and a concrete scope whose body throws `InvalidRange`. -/
theorem C7_scoped_seed_restore_witness :
    (runCall (.scope 1 (.intC 0 5)) ⟨0, 0⟩).2 = ⟨0, 0⟩ ∧
    runCall (.seq (.scope 1 (.intC 0 5)) (.intC 0 3)) ⟨0, 0⟩ =
      ((runCall (.intC 0 3) ⟨0, 0⟩).1.map (GenOut.pair (.int 0)),
        (runCall (.intC 0 3) ⟨0, 0⟩).2) ∧
    runCall (.scope 2 (.intC 1 0)) ⟨0, 0⟩ = (.error .InvalidRange, ⟨0, 0⟩) := by
  obtain ⟨h1, -, h3⟩ := C7_scoped_seed_restore 1 (.intC 0 5) (.intC 0 3) ⟨0, 0⟩
  obtain ⟨-, h2', -⟩ := C7_scoped_seed_restore 2 (.intC 1 0) (.intC 0 0) ⟨0, 0⟩
  exact ⟨h1, h3 (.int 0) (by decide), h2' .InvalidRange (by decide)⟩

/-- C10: `personPortrait` returns exactly the template
`{base}/{sex}/{size}/{n}.jpg`, with `size` the given size or 512 and `sex`
the given sex or the drawn one; since the drawn index lies in `[0, 99]` and
sexes/sizes range over fixed finite lists, the result always names one of
the fixed finite set of asset paths. -/
theorem C10_personPortrait (options : PersonPortraitOptions)
    (drawnSex : String) (drawnN : Nat)
    (hsex : ∀ s, options.sex = some s → s ∈ portraitSexes)
    (hsize : ∀ z, options.size = some z → z ∈ portraitSizes)
    (hdrawn : drawnSex ∈ portraitSexes) (hN : drawnN ≤ 99) :
    personPortrait options drawnSex drawnN =
      portraitBaseURL ++ "/" ++ (options.sex.getD drawnSex) ++ "/" ++
        natDec (options.size.getD 512) ++ "/" ++ natDec drawnN ++ ".jpg" ∧
    personPortrait options drawnSex drawnN ∈ portraitURLs := by
  refine ⟨rfl, ?_⟩
  have hsx : options.sex.getD drawnSex ∈ portraitSexes := by
    cases hs : options.sex with
    | none => simpa using hdrawn
    | some s => simpa using hsex s hs
  have hsz : options.size.getD 512 ∈ portraitSizes := by
    cases hz : options.size with
    | none => simp [portraitSizes]
    | some z => simpa using hsize z hz
  unfold portraitURLs
  rw [List.mem_flatMap]
  refine ⟨options.sex.getD drawnSex, hsx, ?_⟩
  rw [List.mem_flatMap]
  refine ⟨options.size.getD 512, hsz, ?_⟩
  rw [List.mem_map]
  exact ⟨drawnN, List.mem_range.2 (by omega), rfl⟩

/-- C10 witness: default options with a drawn sex and index. -/
theorem C10_personPortrait_witness :
    personPortrait ⟨none, none⟩ "female" 7 =
      portraitBaseURL ++ "/" ++ "female" ++ "/" ++ natDec 512 ++ "/" ++
        natDec 7 ++ ".jpg" ∧
    personPortrait ⟨none, none⟩ "female" 7 ∈ portraitURLs := by
  exact C10_personPortrait ⟨none, none⟩ "female" 7
    (fun s hs => by simp at hs) (fun z hz => by simp at hz)
    (by simp [portraitSexes]) (by omega)

theorem toList_append (s t : String) : (s ++ t).toList = s.toList ++ t.toList := rfl

theorem toList_mk (l : List Char) : (String.mk l).toList = l := rfl

theorem toList_nil : ("" : String).toList = [] := rfl

theorem not_mem_append_parts {α : Type} {a : α} {s t : List α}
    (hs : a ∉ s) (ht : a ∉ t) : a ∉ s ++ t := by
  intro h
  rcases List.mem_append.1 h with h | h
  exacts [hs h, ht h]

theorem infix_append_dropFirst {α : Type} {p b : List α} {c : α}
    (hh : p.head? = some c) :
    ∀ {a : List α}, c ∉ a → p <:+: a ++ b → p <:+: b := by
  intro a
  induction a with
  | nil => exact fun _ h => by simpa using h
  | cons x a' ih =>
    intro hc h
    rw [List.cons_append] at h
    rcases List.infix_cons_iff.1 h with hp | hi
    · cases p with
      | nil => simp at hh
      | cons p0 pt =>
        simp only [List.head?_cons, Option.some.injEq] at hh
        subst hh
        obtain ⟨he, -⟩ := List.cons_prefix_cons.1 hp
        rw [he] at hc
        exact absurd (List.mem_cons_self _ _) hc
    · exact ih (fun hm => hc (List.mem_cons_of_mem _ hm)) hi

theorem prefix_append_elim {α : Type} {b : List α} :
    ∀ {p a : List α}, p <+: a ++ b → p <+: a ∨ ∃ q, p = a ++ q ∧ q <+: b := by
  intro p a
  induction a generalizing p with
  | nil => exact fun h => Or.inr ⟨p, rfl, h⟩
  | cons x a' ih =>
    intro h
    cases p with
    | nil => exact Or.inl (by simp)
    | cons p0 pt =>
      rw [List.cons_append] at h
      obtain ⟨he, ht⟩ := List.cons_prefix_cons.1 h
      subst he
      rcases ih ht with h1 | ⟨q, rfl, hq⟩
      · exact Or.inl (List.cons_prefix_cons.2 ⟨rfl, h1⟩)
      · exact Or.inr ⟨q, by simp, hq⟩

theorem infix_append_elim {α : Type} {b : List α} :
    ∀ {p a : List α}, p <:+: a ++ b →
      p <:+: a ∨ p <:+: b ∨ ∃ s q, p = s ++ q ∧ q ≠ [] ∧ q <+: b := by
  intro p a
  induction a with
  | nil => exact fun h => Or.inr (Or.inl (by simpa using h))
  | cons x a' ih =>
    intro h
    rw [List.cons_append] at h
    rcases List.infix_cons_iff.1 h with hp | hi
    · rw [← List.cons_append] at hp
      rcases prefix_append_elim hp with h1 | ⟨q, rfl, hq⟩
      · exact Or.inl h1.isInfix
      · cases q with
        | nil => exact Or.inl (by simp)
        | cons q0 qt =>
          exact Or.inr (Or.inr ⟨x :: a', q0 :: qt, rfl, by simp, hq⟩)
    · rcases ih hi with h1 | h1 | ⟨s, q, hpq, hq1, hq2⟩
      · exact Or.inl (h1.trans (List.suffix_cons x a').isInfix)
      · exact Or.inr (Or.inl h1)
      · exact Or.inr (Or.inr ⟨s, q, hpq, hq1, hq2⟩)

theorem not_infix_append_parts {p S R : List Char}
    (hS : ¬ p <:+: S)
    (hmem : ∃ c, c ∈ p ∧ c ∉ R)
    (hhead : ∀ c, R.head? = some c → c ∉ p) :
    ¬ p <:+: S ++ R := by
  intro h
  rcases infix_append_elim h with h1 | h1 | ⟨s', q, hpq, hqne, hq⟩
  · exact hS h1
  · obtain ⟨c, hcp, hcR⟩ := hmem
    exact hcR (List.IsInfix.mem hcp h1)
  · obtain ⟨c, hqc⟩ : ∃ c, q.head? = some c := by
      cases q with
      | nil => exact absurd rfl hqne
      | cons q0 qt => exact ⟨q0, rfl⟩
    obtain ⟨t, ht⟩ := hq
    have hcR : R.head? = some c := by
      rw [← ht]
      cases q with
      | nil => exact absurd rfl hqne
      | cons q0 qt => simpa using hqc
    have hcp : c ∈ p := by
      rw [hpq]
      refine List.mem_append_right _ ?_
      cases q with
      | nil => exact absurd rfl hqne
      | cons q0 qt =>
        simp only [List.head?_cons, Option.some.injEq] at hqc
        subst hqc
        exact List.mem_cons_self _ _
    exact hhead c hcR hcp

theorem digitChar_isDigit : ∀ m : Nat, m < 10 → isDigitChar (digitChar m) = true := by
  decide

theorem natDecGo_digits :
    ∀ (fuel n : Nat) (acc : List Char),
      (∀ c ∈ acc, isDigitChar c = true) →
      ∀ c ∈ natDecGo fuel n acc, isDigitChar c = true := by
  intro fuel
  induction fuel with
  | zero => exact fun n acc hacc => hacc
  | succ fuel ih =>
    intro n acc hacc c hc
    have hcons : ∀ c' ∈ digitChar (n % 10) :: acc, isDigitChar c' = true := by
      intro c' hc'
      rcases List.mem_cons.1 hc' with h1 | h1
      · subst h1
        exact digitChar_isDigit _ (Nat.mod_lt _ (by decide))
      · exact hacc c' h1
    rw [natDecGo] at hc
    by_cases hlt : n < 10
    · rw [if_pos hlt] at hc
      exact hcons c hc
    · rw [if_neg hlt] at hc
      exact ih (n / 10) _ hcons c hc

theorem natDec_digits (n : Nat) :
    ∀ c ∈ (natDec n).toList, isDigitChar c = true := by
  intro c hc
  exact natDecGo_digits (n + 1) n [] (by simp) c hc

theorem not_mem_natDec {c : Char} (hc : isDigitChar c = false) (n : Nat) :
    c ∉ (natDec n).toList := by
  intro hm
  have := natDec_digits n c hm
  rw [hc] at this
  exact Bool.noConfusion this

theorem not_mem_of_alnum {seedStr : String}
    (hA : ∀ c ∈ seedStr.toList, isAlnumChar c = true) {c : Char}
    (hc : isAlnumChar c = false) : c ∉ seedStr.toList := by
  intro hm
  have := hA c hm
  rw [hc] at this
  exact Bool.noConfusion this

theorem grayscale_not_in_url {S R : List Char}
    (hG : ¬ "grayscale".toList <:+: S)
    (hgR : 'g' ∉ R) (hheadR : R.head? = some '/') :
    ¬ "grayscale".toList <:+: picsumBase.toList ++ (S ++ R) := by
  intro h
  have h2 : "grayscale".toList <:+: S ++ R :=
    infix_append_dropFirst (c := 'g') (by decide) (by decide) h
  refine not_infix_append_parts hG ⟨'g', by decide, hgR⟩ ?_ h2
  intro c hc
  rw [hheadR, Option.some.injEq] at hc
  subst hc
  decide

/-- C9 (amended): for every seed draw that is alphanumeric and does not
itself contain the substring `grayscale`, the picsum URL starts with the
base followed by `/{seed}/{width}/{height}`; it contains `grayscale` iff
the grayscale option is set, contains `blur={blur}` iff `blur` lies in
`[1, 10]` (so `blur = 0` yields no blur parameter), contains `?` iff either
holds, and contains `&` iff both hold.  Without the seed-string proviso the
containment equivalences fail — see the counterexample. -/
theorem C9_urlPicsumPhotos_amended (seedStr : String) (width height : Nat)
    (grayscale : Bool) (blur : Nat)
    (hA : ∀ c ∈ seedStr.toList, isAlnumChar c = true)
    (hG : ¬ "grayscale".toList <:+: seedStr.toList) :
    (∃ q : String, urlPicsumPhotos seedStr width height grayscale blur =
      picsumBase ++ seedStr ++ "/" ++ natDec width ++ "/" ++ natDec height ++ q) ∧
    ("grayscale".toList <:+:
        (urlPicsumPhotos seedStr width height grayscale blur).toList ↔
      grayscale = true) ∧
    (("blur=" ++ natDec blur).toList <:+:
        (urlPicsumPhotos seedStr width height grayscale blur).toList ↔
      1 ≤ blur ∧ blur ≤ 10) ∧
    ('?' ∈ (urlPicsumPhotos seedStr width height grayscale blur).toList ↔
      (grayscale = true ∨ (1 ≤ blur ∧ blur ≤ 10))) ∧
    ('&' ∈ (urlPicsumPhotos seedStr width height grayscale blur).toList ↔
      (grayscale = true ∧ (1 ≤ blur ∧ blur ≤ 10))) := by
  cases grayscale with
  | true =>
    by_cases hb : 1 ≤ blur ∧ blur ≤ 10
    · -- grayscale and valid blur
      have hurl : urlPicsumPhotos seedStr width height true blur =
          picsumBase ++ seedStr ++ "/" ++ natDec width ++ "/" ++ natDec height ++
            ("?" ++ "grayscale" ++ "&" ++ ("blur=" ++ natDec blur)) := by
        unfold urlPicsumPhotos
        rw [if_pos (Or.inl rfl), if_pos rfl, if_pos ⟨rfl, hb⟩, if_pos hb]
      have hlist : (urlPicsumPhotos seedStr width height true blur).toList =
          picsumBase.toList ++ (seedStr.toList ++ ("/".toList ++
            ((natDec width).toList ++ ("/".toList ++ ((natDec height).toList ++
              ("?".toList ++ ("grayscale".toList ++ ("&".toList ++
                ("blur=".toList ++ (natDec blur).toList))))))))) := by
        rw [hurl]
        simp only [toList_append, List.append_assoc]
      refine ⟨⟨_, hurl⟩, ?_, ?_, ?_, ?_⟩
      · refine iff_of_true ?_ rfl
        rw [hlist]
        refine ⟨picsumBase.toList ++ (seedStr.toList ++ ("/".toList ++
          ((natDec width).toList ++ ("/".toList ++ ((natDec height).toList ++
            "?".toList))))),
          "&".toList ++ ("blur=".toList ++ (natDec blur).toList), ?_⟩
        simp only [List.append_assoc]
      · refine iff_of_true ?_ hb
        rw [toList_append, hlist]
        refine ⟨picsumBase.toList ++ (seedStr.toList ++ ("/".toList ++
          ((natDec width).toList ++ ("/".toList ++ ((natDec height).toList ++
            ("?".toList ++ ("grayscale".toList ++ "&".toList))))))), [], ?_⟩
        simp only [List.append_assoc, List.append_nil]
      · refine iff_of_true ?_ (Or.inl rfl)
        rw [hlist]
        exact List.mem_append_right _ (List.mem_append_right _
          (List.mem_append_right _ (List.mem_append_right _
            (List.mem_append_right _ (List.mem_append_right _
              (List.mem_append_left _ (by decide)))))))
      · refine iff_of_true ?_ ⟨rfl, hb⟩
        rw [hlist]
        exact List.mem_append_right _ (List.mem_append_right _
          (List.mem_append_right _ (List.mem_append_right _
            (List.mem_append_right _ (List.mem_append_right _
              (List.mem_append_right _ (List.mem_append_right _
                (List.mem_append_left _ (by decide)))))))))
    · -- grayscale, no valid blur
      have hurl : urlPicsumPhotos seedStr width height true blur =
          picsumBase ++ seedStr ++ "/" ++ natDec width ++ "/" ++ natDec height ++
            ("?" ++ "grayscale" ++ "" ++ "") := by
        unfold urlPicsumPhotos
        rw [if_pos (Or.inl rfl), if_pos rfl, if_neg (fun h => hb h.2), if_neg hb]
      have hlist : (urlPicsumPhotos seedStr width height true blur).toList =
          picsumBase.toList ++ (seedStr.toList ++ ("/".toList ++
            ((natDec width).toList ++ ("/".toList ++ ((natDec height).toList ++
              ("?".toList ++ "grayscale".toList)))))) := by
        rw [hurl]
        simp only [toList_append, toList_nil, List.append_assoc, List.append_nil]
      refine ⟨⟨_, hurl⟩, ?_, ?_, ?_, ?_⟩
      · refine iff_of_true ?_ rfl
        rw [hlist]
        refine ⟨picsumBase.toList ++ (seedStr.toList ++ ("/".toList ++
          ((natDec width).toList ++ ("/".toList ++ ((natDec height).toList ++
            "?".toList))))), [], ?_⟩
        simp only [List.append_assoc, List.append_nil]
      · refine iff_of_false ?_ hb
        intro h
        have hmem : '=' ∈ ("blur=" ++ natDec blur).toList := by
          rw [toList_append]
          exact List.mem_append_left _ (by decide)
        have hin := List.IsInfix.mem hmem h
        rw [hlist] at hin
        refine not_mem_append_parts (by decide) (not_mem_append_parts
          (not_mem_of_alnum hA (by decide)) (not_mem_append_parts (by decide)
            (not_mem_append_parts (not_mem_natDec (by decide) width)
              (not_mem_append_parts (by decide)
                (not_mem_append_parts (not_mem_natDec (by decide) height)
                  (not_mem_append_parts (by decide) (by decide))))))) hin
      · refine iff_of_true ?_ (Or.inl rfl)
        rw [hlist]
        exact List.mem_append_right _ (List.mem_append_right _
          (List.mem_append_right _ (List.mem_append_right _
            (List.mem_append_right _ (List.mem_append_right _
              (List.mem_append_left _ (by decide)))))))
      · refine iff_of_false ?_ (fun h => hb h.2)
        intro hin
        rw [hlist] at hin
        refine not_mem_append_parts (by decide) (not_mem_append_parts
          (not_mem_of_alnum hA (by decide)) (not_mem_append_parts (by decide)
            (not_mem_append_parts (not_mem_natDec (by decide) width)
              (not_mem_append_parts (by decide)
                (not_mem_append_parts (not_mem_natDec (by decide) height)
                  (not_mem_append_parts (by decide) (by decide))))))) hin
  | false =>
    have hgf : ¬ (false = true) := by simp
    by_cases hb : 1 ≤ blur ∧ blur ≤ 10
    · -- no grayscale, valid blur
      have hurl : urlPicsumPhotos seedStr width height false blur =
          picsumBase ++ seedStr ++ "/" ++ natDec width ++ "/" ++ natDec height ++
            ("?" ++ "" ++ "" ++ ("blur=" ++ natDec blur)) := by
        unfold urlPicsumPhotos
        rw [if_pos (Or.inr hb), if_neg hgf, if_neg (fun h => hgf h.1), if_pos hb]
      have hlist : (urlPicsumPhotos seedStr width height false blur).toList =
          picsumBase.toList ++ (seedStr.toList ++ ("/".toList ++
            ((natDec width).toList ++ ("/".toList ++ ((natDec height).toList ++
              ("?".toList ++ ("blur=".toList ++ (natDec blur).toList))))))) := by
        rw [hurl]
        simp only [toList_append, toList_nil, List.append_assoc, List.append_nil]
      refine ⟨⟨_, hurl⟩, ?_, ?_, ?_, ?_⟩
      · refine iff_of_false ?_ hgf
        rw [hlist]
        refine grayscale_not_in_url hG ?_ rfl
        refine not_mem_append_parts (by decide)
          (not_mem_append_parts (not_mem_natDec (by decide) width)
            (not_mem_append_parts (by decide)
              (not_mem_append_parts (not_mem_natDec (by decide) height)
                (not_mem_append_parts (by decide)
                  (not_mem_append_parts (by decide)
                    (not_mem_natDec (by decide) blur))))))
      · refine iff_of_true ?_ hb
        rw [toList_append, hlist]
        refine ⟨picsumBase.toList ++ (seedStr.toList ++ ("/".toList ++
          ((natDec width).toList ++ ("/".toList ++ ((natDec height).toList ++
            "?".toList))))), [], ?_⟩
        simp only [List.append_assoc, List.append_nil]
      · refine iff_of_true ?_ (Or.inr hb)
        rw [hlist]
        exact List.mem_append_right _ (List.mem_append_right _
          (List.mem_append_right _ (List.mem_append_right _
            (List.mem_append_right _ (List.mem_append_right _
              (List.mem_append_left _ (by decide)))))))
      · refine iff_of_false ?_ (fun h => hgf h.1)
        intro hin
        rw [hlist] at hin
        refine not_mem_append_parts (by decide) (not_mem_append_parts
          (not_mem_of_alnum hA (by decide)) (not_mem_append_parts (by decide)
            (not_mem_append_parts (not_mem_natDec (by decide) width)
              (not_mem_append_parts (by decide)
                (not_mem_append_parts (not_mem_natDec (by decide) height)
                  (not_mem_append_parts (by decide)
                    (not_mem_append_parts (by decide)
                      (not_mem_natDec (by decide) blur)))))))) hin
    · -- no grayscale, no valid blur: bare URL
      have hurl : urlPicsumPhotos seedStr width height false blur =
          picsumBase ++ seedStr ++ "/" ++ natDec width ++ "/" ++ natDec height ++
            "" := by
        unfold urlPicsumPhotos
        rw [if_neg (fun h => h.elim hgf hb)]
      have hlist : (urlPicsumPhotos seedStr width height false blur).toList =
          picsumBase.toList ++ (seedStr.toList ++ ("/".toList ++
            ((natDec width).toList ++ ("/".toList ++ (natDec height).toList)))) := by
        rw [hurl]
        simp only [toList_append, toList_nil, List.append_assoc, List.append_nil]
      refine ⟨⟨_, hurl⟩, ?_, ?_, ?_, ?_⟩
      · refine iff_of_false ?_ hgf
        rw [hlist]
        refine grayscale_not_in_url hG ?_ rfl
        refine not_mem_append_parts (by decide)
          (not_mem_append_parts (not_mem_natDec (by decide) width)
            (not_mem_append_parts (by decide)
              (not_mem_natDec (by decide) height)))
      · refine iff_of_false ?_ hb
        intro h
        have hmem : '=' ∈ ("blur=" ++ natDec blur).toList := by
          rw [toList_append]
          exact List.mem_append_left _ (by decide)
        have hin := List.IsInfix.mem hmem h
        rw [hlist] at hin
        refine not_mem_append_parts (by decide) (not_mem_append_parts
          (not_mem_of_alnum hA (by decide)) (not_mem_append_parts (by decide)
            (not_mem_append_parts (not_mem_natDec (by decide) width)
              (not_mem_append_parts (by decide)
                (not_mem_natDec (by decide) height))))) hin
      · refine iff_of_false ?_ (fun h => h.elim hgf hb)
        intro hin
        rw [hlist] at hin
        refine not_mem_append_parts (by decide) (not_mem_append_parts
          (not_mem_of_alnum hA (by decide)) (not_mem_append_parts (by decide)
            (not_mem_append_parts (not_mem_natDec (by decide) width)
              (not_mem_append_parts (by decide)
                (not_mem_natDec (by decide) height))))) hin
      · refine iff_of_false ?_ (fun h => hgf h.1)
        intro hin
        rw [hlist] at hin
        refine not_mem_append_parts (by decide) (not_mem_append_parts
          (not_mem_of_alnum hA (by decide)) (not_mem_append_parts (by decide)
            (not_mem_append_parts (not_mem_natDec (by decide) width)
              (not_mem_append_parts (by decide)
                (not_mem_natDec (by decide) height))))) hin

/-- C9 counterexample: the claim as stated fails when the randomly drawn
alphanumeric seed string happens to be the literal `"grayscale"` (a valid
9-character draw): the URL then contains the substring `grayscale` although
the grayscale option is `false`, refuting the claimed equivalence. -/
theorem C9_counterexample :
    ¬ ("grayscale".toList <:+:
        (urlPicsumPhotos "grayscale" 1 1 false 0).toList ↔ false = true) := by
  intro h
  have hin : "grayscale".toList <:+:
      (urlPicsumPhotos "grayscale" 1 1 false 0).toList :=
    ⟨"https://picsum.photos/seed/".toList, "/1/1".toList, by decide⟩
  exact Bool.noConfusion (h.1 hin)

/-- C9 witness: a concrete alphanumeric seed draw with explicit options. -/
theorem C9_urlPicsumPhotos_amended_witness :
    (∃ q : String, urlPicsumPhotos "abc12" 640 480 true 4 =
      picsumBase ++ "abc12" ++ "/" ++ natDec 640 ++ "/" ++ natDec 480 ++ q) ∧
    ("grayscale".toList <:+: (urlPicsumPhotos "abc12" 640 480 true 4).toList ↔
      true = true) ∧
    (("blur=" ++ natDec 4).toList <:+:
        (urlPicsumPhotos "abc12" 640 480 true 4).toList ↔
      1 ≤ 4 ∧ 4 ≤ 10) ∧
    ('?' ∈ (urlPicsumPhotos "abc12" 640 480 true 4).toList ↔
      (true = true ∨ (1 ≤ 4 ∧ 4 ≤ 10))) ∧
    ('&' ∈ (urlPicsumPhotos "abc12" 640 480 true 4).toList ↔
      (true = true ∧ (1 ≤ 4 ∧ 4 ≤ 10))) := by
  exact C9_urlPicsumPhotos_amended "abc12" 640 480 true 4 (by decide) (by decide)

end Faker
